import Mathlib

/-!
Verification development for the MMM-CloudPhotos sync-and-prefetch engine.

The definitions below are a shallow embedding of the JavaScript code that
ships with the repository (the CacheManager, PhotoDisplay, GDriveAPI and
initDatabase code in TECH_DESIGN_V3.md, the downloadWithRetry and image
pipeline in TECH_DESIGN.md, together with the unit tests).  The theorems
settle the specification claims about that code.
-/

namespace CloudPhotos

/-!
Display scheduler.  PhotoDisplay.displayNext selects one cached photo with

  SELECT id ... WHERE cached_path IS NOT NULL
  ORDER BY last_viewed_at ASC NULLS FIRST, RANDOM() LIMIT 1

and afterwards sets last_viewed_at to the current time.  vle is the SQL
ordering on last_viewed_at values (NULL sorts first); a display tick may
pick any vle-minimal candidate, which models the RANDOM() tie break.
-/

def vle : Option Nat → Option Nat → Bool
  | none, _ => true
  | some _, none => false
  | some x, some y => decide (x ≤ y)

def isMinCandB (P : List String) (s : String → Option Nat) (p : String) : Bool :=
  P.contains p && P.all (fun q => vle (s p) (s q))

def validTraceB (P : List String) : (String → Option Nat) → List (String × Nat) → Bool
  | _, [] => true
  | s, (p, t) :: tr => isMinCandB P s p && validTraceB P (Function.update s p (some t)) tr

lemma display_aux (P : List String) (B : Nat) (hP : P.Nodup) :
    ∀ (tr : List (String × Nat)) (s : String → Option Nat) (shown : List String),
      shown.Nodup → (∀ x ∈ shown, x ∈ P) →
      (∀ q ∈ P, q ∉ shown → ∀ v, s q = some v → v < B) →
      (∀ q ∈ shown, ∃ v, s q = some v ∧ B ≤ v) →
      (∀ pt ∈ tr, B ≤ pt.2) →
      validTraceB P s tr = true →
      tr.length + shown.length ≤ P.length →
      (tr.map Prod.fst).Nodup ∧ ∀ p ∈ tr.map Prod.fst, p ∈ P ∧ p ∉ shown := by
  intro tr
  induction tr with
  | nil =>
    intro s shown _ _ _ _ _ _ _
    exact ⟨List.nodup_nil, by simp⟩
  | cons pt tr ih =>
    obtain ⟨p, t⟩ := pt
    intro s shown hshnd hshsub hunseen hseen htimes hval hlen
    rw [validTraceB, Bool.and_eq_true] at hval
    obtain ⟨hmin, hvaltr⟩ := hval
    rw [isMinCandB, Bool.and_eq_true, List.all_eq_true] at hmin
    obtain ⟨hpP, hminall⟩ := hmin
    have hpP : p ∈ P := by
      obtain ⟨a, haP, hab⟩ := List.contains_iff_exists_mem_beq.1 hpP
      rw [beq_iff_eq] at hab
      exact hab ▸ haP
    have hlt : shown.length < P.length := by
      simp only [List.length_cons] at hlen
      omega
    have hex : ∃ u, u ∈ P ∧ u ∉ shown := by
      by_contra h
      push_neg at h
      have hsub : P.toFinset ⊆ shown.toFinset := by
        intro x hx
        exact List.mem_toFinset.2 (h x (List.mem_toFinset.1 hx))
      have hcard := Finset.card_le_card hsub
      rw [List.toFinset_card_of_nodup hP, List.toFinset_card_of_nodup hshnd] at hcard
      omega
    have hps : p ∉ shown := by
      intro hmem
      obtain ⟨v, hv, hBv⟩ := hseen p hmem
      obtain ⟨u, huP, hush⟩ := hex
      have hmin : vle (s p) (s u) = true := hminall u huP
      rw [hv] at hmin
      cases hsu : s u with
      | none => rw [hsu] at hmin; simp [vle] at hmin
      | some w =>
        have hwB : w < B := hunseen u huP hush w hsu
        rw [hsu] at hmin
        simp only [vle, decide_eq_true_eq] at hmin
        omega
    have hupd_ne : ∀ q, q ≠ p → Function.update s p (some t) q = s q := by
      intro q hq
      rw [Function.update_apply, if_neg hq]
    have ihres := ih (Function.update s p (some t)) (p :: shown)
      (List.nodup_cons.2 ⟨hps, hshnd⟩)
      (by
        intro x hx
        rcases List.mem_cons.1 hx with h | h
        · exact h ▸ hpP
        · exact hshsub x h)
      (by
        intro q hq hqn v hv
        have hqp : q ≠ p := fun h => hqn (h ▸ List.mem_cons_self p shown)
        have hqsh : q ∉ shown := fun h => hqn (List.mem_cons_of_mem _ h)
        rw [hupd_ne q hqp] at hv
        exact hunseen q hq hqsh v hv)
      (by
        intro q hq
        rcases List.mem_cons.1 hq with h | h
        · subst h
          refine ⟨t, ?_, ?_⟩
          · rw [Function.update_apply, if_pos rfl]
          · exact htimes (q, t) (List.mem_cons_self _ _)
        · have hqp : q ≠ p := fun he => hps (he ▸ h)
          obtain ⟨v, hv, hBv⟩ := hseen q h
          exact ⟨v, (hupd_ne q hqp) ▸ hv, hBv⟩)
      (fun x hx => htimes x (List.mem_cons_of_mem _ hx))
      hvaltr
      (by
        simp only [List.length_cons] at hlen ⊢
        omega)
    obtain ⟨hnd, hmem⟩ := ihres
    constructor
    · rw [List.map_cons, List.nodup_cons]
      refine ⟨?_, hnd⟩
      intro hcontra
      have := (hmem p hcontra).2
      exact this (List.mem_cons_self p shown)
    · intro q hq
      rw [List.map_cons, List.mem_cons] at hq
      rcases hq with h | h
      · exact h ▸ ⟨hpP, hps⟩
      · have := hmem q h
        exact ⟨this.1, fun hc => this.2 (List.mem_cons_of_mem _ hc)⟩

/-- C1: cycle property of the display scheduler.  For a stable list P of
cached photos (no duplicates), if every initial last_viewed_at value lies
below a bound B and every display tick happens at a time at least B (wall
clock times of the ticks are never below past view timestamps), then any
run of exactly P.length display ticks, each picking a vle-minimal
candidate and stamping it with the tick time, emits pairwise distinct
photos and emits every photo of P: each photo exactly once, and no photo
twice before the whole set has been shown. -/
theorem displayScheduler_cycle (P : List String) (s0 : String → Option Nat)
    (tr : List (String × Nat)) (B : Nat)
    (hP : P.Nodup)
    (hinit : ∀ q ∈ P, ∀ v, s0 q = some v → v < B)
    (htimes : ∀ pt ∈ tr, B ≤ pt.2)
    (hval : validTraceB P s0 tr = true)
    (hlen : tr.length = P.length) :
    (tr.map Prod.fst).Nodup ∧ ∀ p ∈ P, p ∈ tr.map Prod.fst := by
  obtain ⟨hnd, hmem⟩ := display_aux P B hP tr s0 []
    List.nodup_nil (by simp)
    (fun q hq _ => hinit q hq) (by simp) htimes hval (by simpa using hlen.le)
  refine ⟨hnd, ?_⟩
  have hsub : (tr.map Prod.fst).toFinset ⊆ P.toFinset := by
    intro x hx
    exact List.mem_toFinset.2 (hmem x (List.mem_toFinset.1 hx)).1
  have hcard : P.toFinset.card ≤ (tr.map Prod.fst).toFinset.card := by
    rw [List.toFinset_card_of_nodup hP, List.toFinset_card_of_nodup hnd,
      List.length_map, hlen]
  have heq := Finset.eq_of_subset_of_card_le hsub hcard
  intro p hp
  have : p ∈ (tr.map Prod.fst).toFinset := heq ▸ List.mem_toFinset.2 hp
  exact List.mem_toFinset.1 this

/-- Witness for C1 at a concrete two-photo run. -/
theorem displayScheduler_cycle_witness :
    (([("a", 5), ("b", 6)] : List (String × Nat)).map Prod.fst).Nodup ∧
      ∀ p ∈ (["a", "b"] : List String),
        p ∈ ([("a", 5), ("b", 6)] : List (String × Nat)).map Prod.fst :=
  displayScheduler_cycle ["a", "b"] (fun _ => none) [("a", 5), ("b", 6)] 1
    (by decide) (fun _ _ _ hv => Option.noConfusion hv) (by decide) (by decide) (by decide)

/-!
Cache engine.  CacheManager in TECH_DESIGN_V3.md runs a 30-second tick:
(1) read the total of cached_size_bytes; (2) when it exceeds the
configured maximum, call evictOldest 10, which selects up to ten cached
rows ordered by last_viewed_at ASC, unlinks their files and nulls
cached_path and cached_size_bytes; (3) when consecutiveFailures > 3, skip
downloads, sleep 60000 ms and reset the counter; (4) select up to five
uncached rows; (5) download them (writing cachePath/id.jpg, then setting
cached_path, cached_at and cached_size_bytes from the file), counting a
tick with at least one attempt and no success as one more consecutive
failure and any success as a reset.  The disk is modelled as a map from
paths to file sizes.
-/

structure PhotoRow where
  id : String
  folder_id : String
  filename : Option String
  creation_time : Option Nat
  width : Option Nat
  height : Option Nat
  last_viewed_at : Option Nat
  cached_path : Option String
  cached_at : Option Nat
  cached_size_bytes : Option Nat
deriving DecidableEq

def insertByViewed (r : PhotoRow) : List PhotoRow → List PhotoRow
  | [] => [r]
  | x :: xs =>
    if vle r.last_viewed_at x.last_viewed_at then r :: x :: xs
    else x :: insertByViewed r xs

def sortByViewed : List PhotoRow → List PhotoRow
  | [] => []
  | r :: rs => insertByViewed r (sortByViewed rs)

def cachedRows (rows : List PhotoRow) : List PhotoRow :=
  rows.filter (fun r => r.cached_path.isSome)

def totalCachedBytes (rows : List PhotoRow) : Nat :=
  (rows.map (fun r => r.cached_size_bytes.getD 0)).sum

def clearCache (r : PhotoRow) : PhotoRow :=
  { r with cached_path := none, cached_size_bytes := none }

def evictSelection (count : Nat) (rows : List PhotoRow) : List PhotoRow :=
  (sortByViewed (cachedRows rows)).take count

def removePaths (sel : List PhotoRow) (disk0 : String → Option Nat) : String → Option Nat :=
  sel.foldl (fun d r =>
    match r.cached_path with
    | some p => fun q => if q = p then none else d q
    | none => d) disk0

def evictOldest (count : Nat) (rows : List PhotoRow) (disk0 : String → Option Nat) :
    List PhotoRow × (String → Option Nat) :=
  let sel := evictSelection count rows
  (rows.map (fun r => if sel.any (fun s => s.id == r.id) then clearCache r else r),
    removePaths sel disk0)

structure CacheState where
  rows : List PhotoRow
  disk : String → Option Nat
  consecutiveFailures : Nat

structure TickEnv where
  now : Nat
  download : String → Option Nat

structure TickReport where
  downloadsAttempted : Nat
  sleptMs : Option Nat
deriving DecidableEq

def photoDiskPath (cachePath pid : String) : String :=
  cachePath ++ "/" ++ pid ++ ".jpg"

def downloadPhoto (cachePath : String) (env : TickEnv)
    (rows : List PhotoRow) (disk : String → Option Nat) (pid : String) :
    Option (List PhotoRow × (String → Option Nat)) :=
  match env.download pid with
  | none => none
  | some bytes =>
    let p := photoDiskPath cachePath pid
    some (rows.map (fun r =>
        if r.id == pid then
          { r with cached_path := some p, cached_at := some env.now,
                   cached_size_bytes := some bytes }
        else r),
      fun q => if q = p then some bytes else disk q)

def prefetchCandidates (rows : List PhotoRow) : List PhotoRow :=
  (sortByViewed (rows.filter (fun r => r.cached_path.isNone))).take 5

def evictPhase (maxCacheBytes : Nat) (st : CacheState) : CacheState :=
  if totalCachedBytes st.rows > maxCacheBytes then
    let res := evictOldest 10 st.rows st.disk
    { rows := res.1, disk := res.2, consecutiveFailures := st.consecutiveFailures }
  else st

def downloadStep (cachePath : String) (env : TickEnv)
    (acc : List PhotoRow × (String → Option Nat) × Nat) (r : PhotoRow) :
    List PhotoRow × (String → Option Nat) × Nat :=
  match downloadPhoto cachePath env acc.1 acc.2.1 r.id with
  | some res => (res.1, res.2, acc.2.2)
  | none => (acc.1, acc.2.1, acc.2.2 + 1)

def tick (maxCacheBytes : Nat) (cachePath : String) (env : TickEnv) (st : CacheState) :
    CacheState × TickReport :=
  let st1 := evictPhase maxCacheBytes st
  if st1.consecutiveFailures > 3 then
    ({ st1 with consecutiveFailures := 0 },
      { downloadsAttempted := 0, sleptMs := some 60000 })
  else
    let cands := prefetchCandidates st1.rows
    if cands.isEmpty then
      (st1, { downloadsAttempted := 0, sleptMs := none })
    else
      let res := cands.foldl (downloadStep cachePath env) (st1.rows, st1.disk, 0)
      let cf := if res.2.2 = cands.length then st1.consecutiveFailures + 1 else 0
      ({ rows := res.1, disk := res.2.1, consecutiveFailures := cf },
        { downloadsAttempted := cands.length, sleptMs := none })

lemma evictPhase_cf (maxCacheBytes : Nat) (st : CacheState) :
    (evictPhase maxCacheBytes st).consecutiveFailures = st.consecutiveFailures := by
  unfold evictPhase
  split <;> rfl

lemma vle_total (a b : Option Nat) : vle a b = true ∨ vle b a = true := by
  cases a with
  | none => exact Or.inl rfl
  | some x =>
    cases b with
    | none => exact Or.inr rfl
    | some y =>
      simp only [vle, decide_eq_true_eq]
      omega

lemma vle_trans {a b c : Option Nat} (h1 : vle a b = true) (h2 : vle b c = true) :
    vle a c = true := by
  cases a with
  | none => cases c <;> rfl
  | some x =>
    cases b with
    | none => exact absurd h1 (by simp [vle])
    | some y =>
      cases c with
      | none => exact absurd h2 (by simp [vle])
      | some z =>
        simp only [vle, decide_eq_true_eq] at h1 h2 ⊢
        omega

lemma insertByViewed_perm (r : PhotoRow) (l : List PhotoRow) :
    List.Perm (insertByViewed r l) (r :: l) := by
  induction l with
  | nil => exact List.Perm.refl _
  | cons x xs ih =>
    rw [insertByViewed]
    split
    · exact List.Perm.refl _
    · exact List.Perm.trans (List.Perm.cons x ih) (List.Perm.swap r x xs)

lemma sortByViewed_perm (l : List PhotoRow) : List.Perm (sortByViewed l) l := by
  induction l with
  | nil => exact List.Perm.refl _
  | cons r rs ih =>
    rw [sortByViewed]
    exact List.Perm.trans (insertByViewed_perm r (sortByViewed rs)) (List.Perm.cons r ih)

lemma insertByViewed_sorted (r : PhotoRow) (l : List PhotoRow)
    (h : List.Pairwise (fun a b => vle a.last_viewed_at b.last_viewed_at = true) l) :
    List.Pairwise (fun a b => vle a.last_viewed_at b.last_viewed_at = true)
      (insertByViewed r l) := by
  induction l with
  | nil => simp [insertByViewed]
  | cons x xs ih =>
    rw [insertByViewed]
    rw [List.pairwise_cons] at h
    obtain ⟨hx, hxs⟩ := h
    split
    · rename_i hvle
      rw [List.pairwise_cons]
      refine ⟨?_, List.pairwise_cons.2 ⟨hx, hxs⟩⟩
      intro y hy
      rcases List.mem_cons.1 hy with hyx | hyxs
      · exact hyx ▸ hvle
      · exact vle_trans hvle (hx y hyxs)
    · rename_i hnvle
      rw [List.pairwise_cons]
      refine ⟨?_, ih hxs⟩
      intro y hy
      have hy2 := (insertByViewed_perm r xs).mem_iff.1 hy
      rcases List.mem_cons.1 hy2 with hyr | hyxs
      · rw [hyr]
        rcases vle_total r.last_viewed_at x.last_viewed_at with hc | hc
        · exact absurd hc hnvle
        · exact hc
      · exact hx y hyxs

lemma sortByViewed_sorted (l : List PhotoRow) :
    List.Pairwise (fun a b => vle a.last_viewed_at b.last_viewed_at = true)
      (sortByViewed l) := by
  induction l with
  | nil => simp [sortByViewed]
  | cons r rs ih => exact insertByViewed_sorted r (sortByViewed rs) ih

lemma foldl_downloadStep_allfail (cachePath : String) (env : TickEnv)
    (hfail : ∀ pid, env.download pid = none) :
    ∀ (l : List PhotoRow) (rows : List PhotoRow) (disk : String → Option Nat) (n : Nat),
      l.foldl (downloadStep cachePath env) (rows, disk, n) = (rows, disk, n + l.length) := by
  intro l
  induction l with
  | nil => intro rows disk n; simp
  | cons r l ih =>
    intro rows disk n
    rw [List.foldl_cons]
    have hstep : downloadStep cachePath env (rows, disk, n) r = (rows, disk, n + 1) := by
      simp [downloadStep, downloadPhoto, hfail r.id]
    rw [hstep, ih]
    have : n + 1 + l.length = n + (r :: l).length := by
      simp [List.length_cons]
      omega
    rw [this]

def uncachedRowX : PhotoRow :=
  { id := "x", folder_id := "f", filename := none, creation_time := none,
    width := none, height := none, last_viewed_at := none,
    cached_path := none, cached_at := none, cached_size_bytes := none }

def c2State : CacheState :=
  { rows := [uncachedRowX], disk := fun _ => none, consecutiveFailures := 3 }

def c4State : CacheState :=
  { rows := [uncachedRowX], disk := fun _ => none, consecutiveFailures := 4 }

def failEnv : TickEnv := { now := 100, download := fun _ => none }

/-- C2 counterexample: with consecutiveFailures = 3 (exactly three all-failed
ticks behind it) the next tick does NOT cool: it still attempts a download,
does not sleep, and moves the counter to 4, because the code guards the
cooling branch with consecutiveFailures > 3, not >= 3. -/
theorem cooling_entry_at_three_fails :
    ¬ ((tick 209715200 "cache" failEnv c2State).2.downloadsAttempted = 0 ∧
       (tick 209715200 "cache" failEnv c2State).2.sleptMs = some 60000 ∧
       (tick 209715200 "cache" failEnv c2State).1.consecutiveFailures = 0) := by
  decide

/-- C2 amended: cooling happens on the tick that starts with
consecutiveFailures > 3, i.e. only after FOUR consecutive all-failed ticks;
that tick performs zero downloads, sleeps 60000 ms and resets the counter
to 0.  A tick that starts with the counter at 3 or below and whose download
attempts (at least one) all fail increments the counter by one and does not
sleep. -/
theorem cooling_entry_amended (maxCacheBytes : Nat) (cachePath : String)
    (env : TickEnv) (st : CacheState) :
    (3 < st.consecutiveFailures →
      (tick maxCacheBytes cachePath env st).2.downloadsAttempted = 0 ∧
      (tick maxCacheBytes cachePath env st).2.sleptMs = some 60000 ∧
      (tick maxCacheBytes cachePath env st).1.consecutiveFailures = 0) ∧
    (st.consecutiveFailures ≤ 3 → (∀ pid, env.download pid = none) →
      prefetchCandidates (evictPhase maxCacheBytes st).rows ≠ [] →
      (tick maxCacheBytes cachePath env st).1.consecutiveFailures =
        st.consecutiveFailures + 1 ∧
      (tick maxCacheBytes cachePath env st).2.sleptMs = none) := by
  constructor
  · intro h
    have h1 : (evictPhase maxCacheBytes st).consecutiveFailures > 3 := by
      rw [evictPhase_cf]; exact h
    simp [tick, if_pos h1]
  · intro hle hfail hne
    have h1 : ¬ (evictPhase maxCacheBytes st).consecutiveFailures > 3 := by
      rw [evictPhase_cf]; omega
    have hempty : ¬ ((prefetchCandidates (evictPhase maxCacheBytes st).rows).isEmpty = true) := by
      rw [List.isEmpty_iff]
      exact hne
    simp only [tick, if_neg h1, if_neg hempty]
    rw [foldl_downloadStep_allfail cachePath env hfail]
    simp [evictPhase_cf]

/-- C2 amended witness at concrete states with the counter at 4 and at 3. -/
theorem cooling_entry_amended_witness :
    ((tick 209715200 "cache" failEnv c4State).2.downloadsAttempted = 0 ∧
     (tick 209715200 "cache" failEnv c4State).2.sleptMs = some 60000 ∧
     (tick 209715200 "cache" failEnv c4State).1.consecutiveFailures = 0) ∧
    ((tick 209715200 "cache" failEnv c2State).1.consecutiveFailures =
       c2State.consecutiveFailures + 1 ∧
     (tick 209715200 "cache" failEnv c2State).2.sleptMs = none) :=
  ⟨(cooling_entry_amended 209715200 "cache" failEnv c4State).1 (by decide),
   (cooling_entry_amended 209715200 "cache" failEnv c2State).2 (by decide)
     (fun _ => rfl) (by decide)⟩

def bigRow (pid : String) (viewed : Nat) : PhotoRow :=
  { id := pid, folder_id := "f", filename := none, creation_time := none,
    width := none, height := none, last_viewed_at := some viewed,
    cached_path := some ("cache/" ++ pid ++ ".jpg"), cached_at := some 50,
    cached_size_bytes := some 104857600 }

def c3State : CacheState :=
  { rows := [bigRow "p01" 1, bigRow "p02" 2, bigRow "p03" 3, bigRow "p04" 4,
             bigRow "p05" 5, bigRow "p06" 6, bigRow "p07" 7, bigRow "p08" 8,
             bigRow "p09" 9, bigRow "p10" 10, bigRow "p11" 11, bigRow "p12" 12],
    disk := fun _ => none, consecutiveFailures := 0 }

/-- C3 counterexample: twelve cached rows of 100 MiB each against a 200 MiB
cap.  The tick starts over the cap, yet after it the cached total is
200 MiB, strictly above the claimed 200 MiB minus 10 MiB headroom target,
while evictable cached rows remain: the code evicts a single batch of ten
rows and never loops toward a byte target. -/
theorem eviction_headroom_fails :
    totalCachedBytes c3State.rows > 209715200 ∧
    ¬ (totalCachedBytes (tick 209715200 "cache" failEnv c3State).1.rows ≤
         209715200 - 10485760 ∨
       cachedRows (tick 209715200 "cache" failEnv c3State).1.rows = []) := by
  decide

/-- C3 amended: on a tick that starts over the byte cap, the eviction pass
clears the cache columns of exactly one batch: the up-to-ten
oldest-by-last_viewed_at cached rows (the take-10 prefix of the cached rows
sorted ascending by last_viewed_at with NULLs first), independent of any
byte target; the selection is a vle-sorted prefix of a permutation of the
cached rows and has length min 10 (number of cached rows). -/
theorem eviction_batch_amended (count : Nat) (rows : List PhotoRow)
    (disk0 : String → Option Nat) :
    (evictOldest count rows disk0).1 =
      rows.map (fun r =>
        if (evictSelection count rows).any (fun s => s.id == r.id) then clearCache r
        else r) ∧
    List.Perm (sortByViewed (cachedRows rows)) (cachedRows rows) ∧
    List.Pairwise (fun a b => vle a.last_viewed_at b.last_viewed_at = true)
      (sortByViewed (cachedRows rows)) ∧
    (evictSelection count rows).length = min count (cachedRows rows).length ∧
    ∀ r ∈ evictSelection count rows, r.cached_path.isSome = true := by
  refine ⟨rfl, sortByViewed_perm _, sortByViewed_sorted _, ?_, ?_⟩
  · rw [evictSelection, List.length_take, (sortByViewed_perm (cachedRows rows)).length_eq]
  · intro r hr
    have h1 : r ∈ sortByViewed (cachedRows rows) :=
      List.mem_of_mem_take hr
    have h2 : r ∈ cachedRows rows := (sortByViewed_perm (cachedRows rows)).mem_iff.1 h1
    exact (List.mem_filter.1 h2).2

/-- C10: frame condition of eviction.  Row-by-row, eviction leaves id,
folder_id, filename, creation_time, width, height, last_viewed_at and
cached_at unchanged, leaves rows whose id is not in the eviction selection
entirely untouched, and on selected rows changes only cached_path and
cached_size_bytes (both to NULL). -/
theorem eviction_frame_condition (count : Nat) (rows : List PhotoRow)
    (disk0 : String → Option Nat) :
    List.Forall₂ (fun r out =>
        out.id = r.id ∧ out.folder_id = r.folder_id ∧ out.filename = r.filename ∧
        out.creation_time = r.creation_time ∧ out.width = r.width ∧
        out.height = r.height ∧ out.last_viewed_at = r.last_viewed_at ∧
        out.cached_at = r.cached_at ∧
        ((evictSelection count rows).any (fun s => s.id == r.id) = false → out = r) ∧
        ((evictSelection count rows).any (fun s => s.id == r.id) = true →
          out.cached_path = none ∧ out.cached_size_bytes = none))
      rows (evictOldest count rows disk0).1 := by
  have heq : (evictOldest count rows disk0).1 =
      rows.map (fun r =>
        if (evictSelection count rows).any (fun s => s.id == r.id) then clearCache r
        else r) := rfl
  rw [heq, List.forall₂_map_right_iff, List.forall₂_same]
  intro r _
  cases hsel : (evictSelection count rows).any (fun s => s.id == r.id) with
  | false =>
    rw [if_neg (by simp [hsel])]
    exact ⟨rfl, rfl, rfl, rfl, rfl, rfl, rfl, rfl, fun _ => rfl, fun hc => by simp [hsel] at hc⟩
  | true =>
    rw [if_pos (by simp [hsel])]
    exact ⟨rfl, rfl, rfl, rfl, rfl, rfl, rfl, rfl, fun hc => by simp [hsel] at hc,
      fun _ => ⟨rfl, rfl⟩⟩

/-!
Cache-field consistency.  rowCacheConsistentB is the claimed invariant:
all cache fields NULL, or one storage mode with the size equal to the bytes
on disk and the cached-at timestamp set.  goodRow is the invariant the code
actually maintains: cached_path and cached_size_bytes are both NULL or both
set consistently with the disk, while cached_at may keep a stale value
after eviction (evictOldest nulls only cached_path and cached_size_bytes).
-/

def rowCacheConsistentB (disk : String → Option Nat) (r : PhotoRow) : Bool :=
  match r.cached_path, r.cached_size_bytes, r.cached_at with
  | none, none, none => true
  | some p, some n, some _ => disk p == some n
  | _, _, _ => false

def goodRow (cachePath : String) (disk : String → Option Nat) (r : PhotoRow) : Prop :=
  (r.cached_path = none ∧ r.cached_size_bytes = none) ∨
  (r.cached_path = some (photoDiskPath cachePath r.id) ∧ r.cached_at ≠ none ∧
    ∃ n, r.cached_size_bytes = some n ∧ disk (photoDiskPath cachePath r.id) = some n)

def goodState (cachePath : String) (st : CacheState) : Prop :=
  ∀ r ∈ st.rows, goodRow cachePath st.disk r

lemma photoDiskPath_inj (cp : String) {a b : String}
    (h : photoDiskPath cp a = photoDiskPath cp b) : a = b := by
  unfold photoDiskPath at h
  rw [String.ext_iff] at h ⊢
  simp only [String.data_append] at h
  rw [List.append_assoc, List.append_assoc, List.append_assoc, List.append_assoc] at h
  have h2 := List.append_cancel_left (List.append_cancel_left h)
  exact List.append_cancel_right h2

lemma removePaths_notin (sel : List PhotoRow) (disk0 : String → Option Nat) (p : String)
    (h : ∀ s ∈ sel, s.cached_path ≠ some p) : removePaths sel disk0 p = disk0 p := by
  induction sel generalizing disk0 with
  | nil => rfl
  | cons s ss ih =>
    rw [removePaths, List.foldl_cons]
    cases hsp : s.cached_path with
    | none =>
      exact ih _ (fun x hx => h x (List.mem_cons_of_mem _ hx))
    | some q =>
      have hrec := ih (fun r => if r = q then none else disk0 r)
        (fun x hx => h x (List.mem_cons_of_mem _ hx))
      have hqp : p ≠ q := by
        intro he
        exact h s (List.mem_cons_self _ _) (by rw [hsp, he])
      exact hrec.trans (if_neg hqp)

lemma evictSelection_mem (count : Nat) (rows : List PhotoRow) {s : PhotoRow}
    (hs : s ∈ evictSelection count rows) : s ∈ rows ∧ s.cached_path.isSome = true := by
  have h1 : s ∈ sortByViewed (cachedRows rows) := List.mem_of_mem_take hs
  have h2 : s ∈ cachedRows rows := (sortByViewed_perm (cachedRows rows)).mem_iff.1 h1
  exact ⟨(List.mem_filter.1 h2).1, (List.mem_filter.1 h2).2⟩

lemma evict_preserves_good (cachePath : String) (count : Nat)
    (rows : List PhotoRow) (disk : String → Option Nat)
    (hgood : ∀ r ∈ rows, goodRow cachePath disk r) :
    ∀ r ∈ (evictOldest count rows disk).1,
      goodRow cachePath (evictOldest count rows disk).2 r := by
  intro out hout
  have heq : (evictOldest count rows disk).1 =
      rows.map (fun r =>
        if (evictSelection count rows).any (fun s => s.id == r.id) then clearCache r
        else r) := rfl
  rw [heq, List.mem_map] at hout
  obtain ⟨r, hr, hfr⟩ := hout
  cases hsel : (evictSelection count rows).any (fun s => s.id == r.id) with
  | true =>
    rw [if_pos (by simp [hsel])] at hfr
    exact Or.inl (by rw [← hfr]; exact ⟨rfl, rfl⟩)
  | false =>
    rw [if_neg (by simp [hsel])] at hfr
    subst hfr
    rcases hgood r hr with hn | ⟨hp, hat, n, hsz, hdisk⟩
    · exact Or.inl hn
    · refine Or.inr ⟨hp, hat, n, hsz, ?_⟩
      have hne : ∀ s ∈ evictSelection count rows,
          s.cached_path ≠ some (photoDiskPath cachePath r.id) := by
        intro s hsm hcontra
        rcases hgood s (evictSelection_mem count rows hsm).1 with hsn | ⟨hsp, _, _⟩
        · rw [hsn.1] at hcontra
          exact Option.noConfusion hcontra
        · rw [hsp] at hcontra
          have hid : s.id = r.id :=
            photoDiskPath_inj cachePath (Option.some.inj hcontra)
          rw [List.any_eq_false] at hsel
          exact hsel s hsm (by simp [hid])
      have : (evictOldest count rows disk).2 (photoDiskPath cachePath r.id) =
          disk (photoDiskPath cachePath r.id) := by
        have h2 : (evictOldest count rows disk).2 =
            removePaths (evictSelection count rows) disk := rfl
        rw [h2]
        exact removePaths_notin _ _ _ hne
      rw [this]
      exact hdisk

lemma downloadPhoto_preserves_good (cachePath : String) (env : TickEnv)
    (rows : List PhotoRow) (disk : String → Option Nat) (pid : String)
    (rows2 : List PhotoRow) (disk2 : String → Option Nat)
    (hdl : downloadPhoto cachePath env rows disk pid = some (rows2, disk2))
    (hgood : ∀ r ∈ rows, goodRow cachePath disk r) :
    ∀ r ∈ rows2, goodRow cachePath disk2 r := by
  rw [downloadPhoto] at hdl
  cases hb : env.download pid with
  | none => rw [hb] at hdl; exact Option.noConfusion hdl
  | some bytes =>
    rw [hb] at hdl
    simp only [Option.some.injEq, Prod.mk.injEq] at hdl
    obtain ⟨hrows, hdisk⟩ := hdl
    intro out hout
    rw [← hrows, List.mem_map] at hout
    obtain ⟨r, hr, hfr⟩ := hout
    by_cases hid : r.id = pid
    · rw [if_pos (by simp [hid])] at hfr
      refine Or.inr ?_
      rw [← hfr]
      refine ⟨by rw [hid], by simp, bytes, rfl, ?_⟩
      rw [← hdisk]
      simp [hid]
    · rw [if_neg (by simp [hid])] at hfr
      subst hfr
      rcases hgood r hr with hn | ⟨hp, hat, n, hsz, hdk⟩
      · exact Or.inl hn
      · refine Or.inr ⟨hp, hat, n, hsz, ?_⟩
        rw [← hdisk]
        have hne : photoDiskPath cachePath r.id ≠ photoDiskPath cachePath pid :=
          fun hc => hid (photoDiskPath_inj cachePath hc)
        simp only [if_neg hne]
        exact hdk

lemma fold_download_preserves_good (cachePath : String) (env : TickEnv) :
    ∀ (cands : List PhotoRow) (rows : List PhotoRow) (disk : String → Option Nat) (n : Nat),
      (∀ r ∈ rows, goodRow cachePath disk r) →
      ∀ r ∈ (cands.foldl (downloadStep cachePath env) (rows, disk, n)).1,
        goodRow cachePath (cands.foldl (downloadStep cachePath env) (rows, disk, n)).2.1 r := by
  intro cands
  induction cands with
  | nil => intro rows disk n hgood; exact hgood
  | cons c cs ih =>
    intro rows disk n hgood
    rw [List.foldl_cons]
    cases hdl : downloadPhoto cachePath env rows disk c.id with
    | none =>
      have hstep : downloadStep cachePath env (rows, disk, n) c = (rows, disk, n + 1) := by
        simp [downloadStep, hdl]
      rw [hstep]
      exact ih rows disk (n + 1) hgood
    | some res =>
      have hstep : downloadStep cachePath env (rows, disk, n) c = (res.1, res.2, n) := by
        simp [downloadStep, hdl]
      rw [hstep]
      exact ih res.1 res.2 n
        (downloadPhoto_preserves_good cachePath env rows disk c.id res.1 res.2
          (by rw [hdl]) hgood)

/-- C7 counterexample: one 100 MiB cached row against a tiny cap.  The tick
evicts it, nulling cached_path and cached_size_bytes but not cached_at, so
the resulting row is neither all-NULL nor internally consistent: the
claimed invariant fails on the eviction path. -/
theorem cache_consistency_fails :
    ((tick 100 "cache" failEnv
        { rows := [bigRow "q" 7],
          disk := fun p => if p = "cache/q.jpg" then some 104857600 else none,
          consecutiveFailures := 0 }).1.rows.all
      (fun r => rowCacheConsistentB
        (tick 100 "cache" failEnv
          { rows := [bigRow "q" 7],
            disk := fun p => if p = "cache/q.jpg" then some 104857600 else none,
            consecutiveFailures := 0 }).1.disk r)) = false := by
  decide

/-- C7 amended: after any cache tick, every row either has cached_path and
cached_size_bytes both NULL, or has cached_path equal to the canonical
cache path of its id, cached_at set, and cached_size_bytes equal to the
size of the bytes present on disk at that path.  The cached_at column may
keep a stale timestamp on evicted rows, since eviction nulls only
cached_path and cached_size_bytes. -/
theorem cache_consistency_amended (maxCacheBytes : Nat) (cachePath : String)
    (env : TickEnv) (st : CacheState) (h : goodState cachePath st) :
    goodState cachePath (tick maxCacheBytes cachePath env st).1 := by
  have h1 : goodState cachePath (evictPhase maxCacheBytes st) := by
    rw [evictPhase]
    split
    · exact evict_preserves_good cachePath 10 st.rows st.disk h
    · exact h
  simp only [tick]
  split
  · exact h1
  · split
    · exact h1
    · exact fold_download_preserves_good cachePath env _ _ _ 0 h1

/-- C7 amended witness: a concrete consistent one-row state stays
consistent across a tick. -/
theorem cache_consistency_amended_witness :
    goodState "cache"
      (tick 209715200 "cache" failEnv
        { rows := [bigRow "q" 7],
          disk := fun p => if p = "cache/q.jpg" then some 104857600 else none,
          consecutiveFailures := 0 }).1 :=
  cache_consistency_amended 209715200 "cache" failEnv _
    (by
      intro r hr
      simp only [List.mem_singleton] at hr
      subst hr
      refine Or.inr ⟨by decide, by decide, 104857600, rfl, by decide⟩)

/-!
Metadata store initialization (initDatabase in TECH_DESIGN_V3.md).  When
the integrity check fails or the open throws, the code deletes the backing
file, re-opens an empty store and recreates the schema; it writes no
setting in that branch.  scanForChanges performs a full scan exactly when
no changes_token setting is stored.
-/

inductive DbFile
  | missing
  | corrupt
  | ok (photos : List PhotoRow) (settings : List (String × String))

structure Db where
  photos : List PhotoRow
  settings : List (String × String)
deriving DecidableEq

def createSchema : Db := { photos := [], settings := [] }

def initDatabase : DbFile → Db
  | DbFile.ok ps ss => { photos := ps, settings := ss }
  | _ => createSchema

def getSetting (db : Db) (k : String) : Option String :=
  (db.settings.find? (fun kv => kv.fst == k)).map (fun kv => kv.snd)

def scanStartsWithFullScan (db : Db) : Bool :=
  (getSetting db "changes_token").isNone

/-- C4 counterexample: recovery from a corrupt store never writes the
setting sync.needsFullRescan; the rebuilt settings table is empty. -/
theorem corruption_recovery_setting_fails :
    ¬ (getSetting (initDatabase DbFile.corrupt) "sync.needsFullRescan" = some "true") := by
  decide

/-- C4 amended: on a failed integrity check, initialization rebuilds an
empty store with the schema recreated and returns it (the recovery branch
is total, so no exception escapes); the subsequent full rescan is triggered
implicitly, because the rebuilt store holds no changes_token setting and
scanForChanges falls back to a full scan in that case, not via any
sync.needsFullRescan setting. -/
theorem corruption_recovery_amended :
    initDatabase DbFile.corrupt = createSchema ∧
    (initDatabase DbFile.corrupt).photos = [] ∧
    (initDatabase DbFile.corrupt).settings = [] ∧
    scanStartsWithFullScan (initDatabase DbFile.corrupt) = true ∧
    getSetting (initDatabase DbFile.corrupt) "sync.needsFullRescan" = none := by
  decide

/-!
Provider retry (downloadWithRetry in TECH_DESIGN.md and TECH_DESIGN_V3.md):
up to maxRetries = 3 attempts; after a failed attempt that is not the last
one the code sleeps attempt * 1000 milliseconds.  The run is modelled by
the attempt outcomes; the result is (attempts made, success, sleeps). -/

def retryDelayMs (attempt : Nat) : Nat := attempt * 1000

def retryGo (outcomes : Nat → Bool) (maxRetries : Nat) : Nat → Nat → Nat × Bool × List Nat
  | attempt, 0 => (attempt, false, [])
  | attempt, fuel + 1 =>
    if outcomes attempt then (attempt, true, [])
    else if attempt = maxRetries then (attempt, false, [])
    else
      let r := retryGo outcomes maxRetries (attempt + 1) fuel
      (r.1, r.2.1, retryDelayMs attempt :: r.2.2)

def downloadWithRetry (outcomes : Nat → Bool) (maxRetries : Nat) : Nat × Bool × List Nat :=
  retryGo outcomes maxRetries 1 maxRetries

def specRetryDelayMs (attempt : Nat) : Nat := min (2000 * 2 ^ (attempt - 1)) 60000

/-- C8 counterexample: with every attempt failing, the code sleeps 1000 ms
and then 2000 ms, a linear schedule, not the claimed exponential schedule
whose first delay is 2000 ms (capped at 60000 ms). -/
theorem retry_backoff_fails :
    (downloadWithRetry (fun _ => false) 3).2.2 = [1000, 2000] ∧
    (downloadWithRetry (fun _ => false) 3).2.2 ≠
      [specRetryDelayMs 1, specRetryDelayMs 2] := by
  decide

/-- C8 amended: a transient download failure is retried within at most
three total attempts (so at most two retries), with a linear back-off of
attempt * 1000 milliseconds between attempts: 1 s after the first failure
and 2 s after the second; the download succeeds exactly when one of the
three attempts succeeds. -/
theorem retry_policy_amended (outcomes : Nat → Bool) :
    1 ≤ (downloadWithRetry outcomes 3).1 ∧ (downloadWithRetry outcomes 3).1 ≤ 3 ∧
    (downloadWithRetry outcomes 3).2.1 = (outcomes 1 || outcomes 2 || outcomes 3) ∧
    (downloadWithRetry outcomes 3).2.2 =
      (List.range ((downloadWithRetry outcomes 3).1 - 1)).map (fun i => retryDelayMs (i + 1)) ∧
    retryDelayMs 1 = 1000 ∧ retryDelayMs 2 = 2000 := by
  cases h1 : outcomes 1 <;> cases h2 : outcomes 2 <;> cases h3 : outcomes 3 <;>
    simp [downloadWithRetry, retryGo, retryDelayMs, h1, h2, h3, List.range_succ]

/-!
Image normalization (downloadAndCachePhoto and isValidImage in
TECH_DESIGN.md): validation rejects unsupported formats and any dimension
below 100 or above 16384; normalization resizes fit-inside to the
configured showWidth by showHeight without enlargement, with round to
nearest and a floor of one pixel per side, as the sharp resize does. -/

def rnd (a b : Nat) : Nat := (2 * a + b) / (2 * b)

def fitInside (w h targetW targetH : Nat) : Nat × Nat :=
  if w ≤ targetW ∧ h ≤ targetH then (w, h)
  else if targetW * h ≤ targetH * w then (targetW, max 1 (rnd (h * targetW) w))
  else (max 1 (rnd (w * targetH) h), targetH)

def supportedFormats : List String :=
  ["jpeg", "jpg", "png", "webp", "gif", "heif", "heic", "tiff", "bmp"]

def isValidImage (format : String) (w h : Nat) : Bool :=
  supportedFormats.contains format &&
    decide (100 ≤ w) && decide (w ≤ 16384) && decide (100 ≤ h) && decide (h ≤ 16384)

lemma rnd_le {a b H : Nat} (hb : 1 ≤ b) (ha : a ≤ H * b) : rnd a b ≤ H := by
  have h1 : 2 * a ≤ 2 * (H * b) := Nat.mul_le_mul_left 2 ha
  have h3 : 2 * a + b < 2 * (H * b) + 2 * b := by omega
  have h4 : (H + 1) * (2 * b) = 2 * (H * b) + 2 * b := by ring
  have h5 : (2 * a + b) / (2 * b) < H + 1 :=
    (Nat.div_lt_iff_lt_mul (by omega)).2 (by rw [h4]; exact h3)
  rw [rnd]
  omega

/-- C9 counterexample: a 16384 by 100 image passes validation, but its
fit-inside normalization to a 1080 by 1920 target has height 7, far below
the claimed 100-pixel minimum for the output. -/
theorem normalization_min_dims_fails :
    isValidImage "jpeg" 16384 100 = true ∧
    (fitInside 16384 100 1080 1920).2 < 100 := by
  decide

/-- C9 amended: for a validated input (each source dimension between 100
and 16384) and positive resize targets, the normalized output satisfies
max dimension at most max(showWidth, showHeight), and each output
dimension is at least 1; the 100-pixel lower bound holds for the input,
not for the output. -/
theorem normalization_amended (format : String) (w h targetW targetH : Nat)
    (hv : isValidImage format w h = true) (hW : 1 ≤ targetW) (hH : 1 ≤ targetH) :
    1 ≤ (fitInside w h targetW targetH).1 ∧ 1 ≤ (fitInside w h targetW targetH).2 ∧
    max (fitInside w h targetW targetH).1 (fitInside w h targetW targetH).2 ≤
      max targetW targetH := by
  simp only [isValidImage, Bool.and_eq_true, decide_eq_true_eq] at hv
  obtain ⟨⟨⟨⟨_, hw100⟩, _⟩, hh100⟩, _⟩ := hv
  rw [fitInside]
  split
  · rename_i hfit
    refine ⟨by omega, by omega, ?_⟩
    exact max_le_max hfit.1 hfit.2
  · split
    · rename_i hwide
      refine ⟨by omega, le_max_left 1 _, ?_⟩
      have hr : rnd (h * targetW) w ≤ targetH := by
        refine rnd_le (by omega) ?_
        calc h * targetW = targetW * h := Nat.mul_comm _ _
          _ ≤ targetH * w := hwide
      have h1a : targetW ≤ max targetW targetH := le_max_left _ _
      have h1b : targetH ≤ max targetW targetH := le_max_right _ _
      exact max_le h1a (max_le (le_trans hW h1a) (le_trans hr h1b))
    · rename_i hnarrow
      refine ⟨le_max_left 1 _, by omega, ?_⟩
      have hr : rnd (w * targetH) h ≤ targetW := by
        refine rnd_le (by omega) ?_
        have := Nat.le_of_lt (Nat.lt_of_not_le hnarrow)
        calc w * targetH = targetH * w := Nat.mul_comm _ _
          _ ≤ targetW * h := this
      have h1a : targetW ≤ max targetW targetH := le_max_left _ _
      have h1b : targetH ≤ max targetW targetH := le_max_right _ _
      exact max_le (max_le (le_trans hW h1a) (le_trans hr h1a)) h1b

/-- C9 amended witness at a 200 by 150 validated input. -/
theorem normalization_amended_witness :
    1 ≤ (fitInside 200 150 1080 1920).1 ∧ 1 ≤ (fitInside 200 150 1080 1920).2 ∧
    max (fitInside 200 150 1080 1920).1 (fitInside 200 150 1080 1920).2 ≤
      max 1080 1920 :=
  normalization_amended "jpeg" 200 150 1080 1920 (by decide) (by decide) (by decide)

/-!
Folder scanning (GDriveAPI.scanFolder in TECH_DESIGN_V3.md).  The code
declares the visitedFolders set as a local constant INSIDE scanFolder, so
every recursive invocation starts from a fresh empty set; the set only
deduplicates the subfolder listing of one call.  The recursion is modelled
with fuel: a none result means the recursion has not returned within the
given fuel, for any fuel, so it never returns. -/

structure FolderGraph where
  subfolders : String → List String
  photosIn : String → List String

def scanFolderLocal (g : FolderGraph) (maxDepth : Int) :
    Nat → String → Nat → Option (List String)
  | 0, _, _ => none
  | fuel + 1, fid, depth =>
    let base := g.photosIn fid
    if maxDepth = -1 ∨ (depth : Int) < maxDepth then
      match (g.subfolders fid).foldl
          (fun acc c =>
            match acc with
            | none => none
            | some vp =>
              if vp.1.contains c then some vp
              else
                match scanFolderLocal g maxDepth fuel c (depth + 1) with
                | none => none
                | some ps => some (c :: vp.1, vp.2 ++ ps))
          (some (([] : List String), ([] : List String))) with
      | none => none
      | some res => some (base ++ res.2)
    else some base

def cyclicGraph : FolderGraph :=
  { subfolders := fun fid => if fid = "A" then ["B"] else if fid = "B" then ["A"] else [],
    photosIn := fun _ => [] }

/-- C6: evaluation of the code at the failing input.  On the two-folder
cycle A to B to A with unbounded depth, the recursive scan never returns,
whatever fuel it is given: each recursive call allocates a fresh local
visitedFolders set, so the cycle guard never fires across calls and the
recursion A, B, A, B, ... is infinite, contradicting the documented
circular-folder defense. -/
theorem scanFolder_cycle_never_returns :
    ∀ fuel depth, scanFolderLocal cyclicGraph (-1) fuel "A" depth = none ∧
      scanFolderLocal cyclicGraph (-1) fuel "B" depth = none := by
  intro fuel
  induction fuel with
  | zero => intro depth; exact ⟨rfl, rfl⟩
  | succ fuel ih =>
    intro depth
    constructor
    · have h2 := (ih (depth + 1)).2
      rw [scanFolderLocal]
      simp only [cyclicGraph] at h2 ⊢
      simp [h2]
    · have h1 := (ih (depth + 1)).1
      rw [scanFolderLocal]
      simp only [cyclicGraph] at h1 ⊢
      simp [h1]

/-!
Incremental scanning (scanForChanges in TECH_DESIGN_V3.md).  The loop
processes one Changes page at a time.  For each change it either applies a
deletion to the metadata store at once (db.deletePhoto, for removed or
trashed changes) or merely pushes the changed image file onto the
in-memory changedPhotos array; it then saves the cursor to the settings
store when the page carries a newStartPageToken, and loops while a
nextPageToken remains.  Only after scanForChanges returns does the caller
write the collected created and updated photos to the metadata store
(db.savePhotos on the returned array).  The execution is modelled as the
list of events in order: applyDelete and saveCursor are store writes
performed during the loop, collectPhoto is the in-memory push (not a store
write), and applyUpsert is the caller's store write after the scan, so the
full trace is the scan trace followed by one applyUpsert per collected
photo.
-/

inductive ChangeKind
  | removedOrTrashed
  | image
  | other
deriving DecidableEq

structure ChangeEvent where
  fileId : String
  kind : ChangeKind
deriving DecidableEq

structure ChangePage where
  changes : List ChangeEvent
  nextPageToken : Option String
  newStartPageToken : Option String
deriving DecidableEq

inductive SyncEvent
  | applyDelete (pageIdx changeIdx : Nat) (fileId : String)
  | collectPhoto (pageIdx changeIdx : Nat) (fileId : String)
  | saveCursor (pageIdx : Nat) (token : String)
  | applyUpsert (fileId : String)
deriving DecidableEq

def loopEvents (i : Nat) (pg : ChangePage) : List SyncEvent :=
  pg.changes.enum.filterMap (fun ic =>
    match ic.2.kind with
    | ChangeKind.removedOrTrashed => some (SyncEvent.applyDelete i ic.1 ic.2.fileId)
    | ChangeKind.image => some (SyncEvent.collectPhoto i ic.1 ic.2.fileId)
    | ChangeKind.other => none)

def deleteEvents (i : Nat) (pg : ChangePage) : List SyncEvent :=
  pg.changes.enum.filterMap (fun ic =>
    if ic.2.kind = ChangeKind.removedOrTrashed then
      some (SyncEvent.applyDelete i ic.1 ic.2.fileId)
    else none)

def saveEvents (i : Nat) (pg : ChangePage) : List SyncEvent :=
  match pg.newStartPageToken with
  | some t => [SyncEvent.saveCursor i t]
  | none => []

def scanTraceFrom : Nat → List ChangePage → List SyncEvent
  | _, [] => []
  | i, pg :: rest =>
    loopEvents i pg ++ saveEvents i pg ++
      (if pg.nextPageToken.isSome then scanTraceFrom (i + 1) rest else [])

def scanTrace (pages : List ChangePage) : List SyncEvent :=
  scanTraceFrom 0 pages

def collectedFrom : List ChangePage → List String
  | [] => []
  | pg :: rest =>
    pg.changes.filterMap (fun c =>
        if c.kind = ChangeKind.image then some c.fileId else none) ++
      (if pg.nextPageToken.isSome then collectedFrom rest else [])

def fullTrace (pages : List ChangePage) : List SyncEvent :=
  scanTrace pages ++ (collectedFrom pages).map SyncEvent.applyUpsert

lemma saveCursor_not_mem_loopEvents (i : Nat) (t : String) (j : Nat) (pg : ChangePage) :
    SyncEvent.saveCursor i t ∉ loopEvents j pg := by
  rw [loopEvents]
  intro hmem
  rw [List.mem_filterMap] at hmem
  obtain ⟨ic, _, hic⟩ := hmem
  cases hk : ic.2.kind <;> simp [hk] at hic

lemma mem_saveEvents {i j : Nat} {t : String} {pg : ChangePage}
    (h : SyncEvent.saveCursor i t ∈ saveEvents j pg) :
    i = j ∧ pg.newStartPageToken = some t := by
  rw [saveEvents] at h
  cases hn : pg.newStartPageToken with
  | none => rw [hn] at h; simp at h
  | some t0 =>
    rw [hn] at h
    simp only [List.mem_singleton, SyncEvent.saveCursor.injEq] at h
    exact ⟨h.1, by rw [h.2]⟩

lemma scanTrace_cursor_aux :
    ∀ (pages : List ChangePage) (s n i : Nat) (t : String),
      SyncEvent.saveCursor i t ∈ (scanTraceFrom s pages).take n →
      ∀ j, s ≤ j → j ≤ i → ∀ pg, pages.get? (j - s) = some pg →
        ∀ e ∈ loopEvents j pg, e ∈ (scanTraceFrom s pages).take n := by
  intro pages
  induction pages with
  | nil =>
    intro s n i t hmem
    rw [scanTraceFrom] at hmem
    simp at hmem
  | cons pg rest ih =>
    intro s n i t hmem j hsj hji pg' hget e he
    rw [scanTraceFrom] at hmem ⊢
    cases hnext : pg.nextPageToken.isSome with
    | false =>
      rw [hnext] at hmem
      rw [if_neg Bool.false_ne_true, List.append_nil] at hmem ⊢
      rw [List.take_append_eq_append_take] at hmem ⊢
      rcases List.mem_append.1 hmem with h1 | h2
      · exact absurd (List.mem_of_mem_take h1) (saveCursor_not_mem_loopEvents i t s pg)
      · have his : i = s := (mem_saveEvents (List.mem_of_mem_take h2)).1
        have hjs : j = s := by omega
        subst hjs
        have hpg : pg' = pg := by
          rw [Nat.sub_self, List.get?_cons_zero] at hget
          exact (Option.some.inj hget).symm
        rw [hpg] at he
        have h0 : n - (loopEvents j pg).length ≠ 0 := by
          intro h0
          rw [h0, List.take_zero] at h2
          simp at h2
        refine List.mem_append.2 (Or.inl ?_)
        rw [List.take_of_length_le (by omega)]
        exact he
    | true =>
      rw [hnext] at hmem
      rw [if_pos rfl] at hmem ⊢
      rw [List.take_append_eq_append_take, List.take_append_eq_append_take] at hmem ⊢
      rcases List.mem_append.1 hmem with h12 | h3
      · rcases List.mem_append.1 h12 with h1 | h2
        · exact absurd (List.mem_of_mem_take h1) (saveCursor_not_mem_loopEvents i t s pg)
        · have his : i = s := (mem_saveEvents (List.mem_of_mem_take h2)).1
          have hjs : j = s := by omega
          subst hjs
          have hpg : pg' = pg := by
            rw [Nat.sub_self, List.get?_cons_zero] at hget
            exact (Option.some.inj hget).symm
          rw [hpg] at he
          have h0 : n - (loopEvents j pg).length ≠ 0 := by
            intro h0
            rw [h0, List.take_zero] at h2
            simp at h2
          refine List.mem_append.2 (Or.inl (List.mem_append.2 (Or.inl ?_)))
          rw [List.take_of_length_le (by omega)]
          exact he
      · have h0 : n - (loopEvents s pg ++ saveEvents s pg).length ≠ 0 := by
          intro h0
          rw [h0, List.take_zero] at h3
          simp at h3
        rcases Nat.lt_or_ge j (s + 1) with hj1 | hj2
        · have hjs : j = s := by omega
          subst hjs
          have hpg : pg' = pg := by
            rw [Nat.sub_self, List.get?_cons_zero] at hget
            exact (Option.some.inj hget).symm
          rw [hpg] at he
          have hlenA : (loopEvents j pg).length ≤ n := by
            rw [List.length_append] at h0
            omega
          refine List.mem_append.2 (Or.inl (List.mem_append.2 (Or.inl ?_)))
          rw [List.take_of_length_le hlenA]
          exact he
        · have hget2 : rest.get? (j - (s + 1)) = some pg' := by
            have hj : j - s = (j - (s + 1)) + 1 := by omega
            rw [hj, List.get?_cons_succ] at hget
            exact hget
          exact List.mem_append.2
            (Or.inr (ih (s + 1) (n - (loopEvents s pg ++ saveEvents s pg).length) i t
              h3 j hj2 hji pg' hget2 e he))

lemma deleteEvents_subset_loopEvents (j : Nat) (pg : ChangePage) :
    ∀ e ∈ deleteEvents j pg, e ∈ loopEvents j pg := by
  intro e he
  rw [deleteEvents, List.mem_filterMap] at he
  obtain ⟨ic, hic_mem, hic⟩ := he
  rw [loopEvents, List.mem_filterMap]
  refine ⟨ic, hic_mem, ?_⟩
  cases hk : ic.2.kind with
  | removedOrTrashed =>
    rw [hk, if_pos rfl] at hic
    simp [hk, hic]
  | image => rw [hk] at hic; simp at hic
  | other => rw [hk] at hic; simp at hic

lemma upsert_not_mem_loopEvents (f : String) (j : Nat) (pg : ChangePage) :
    SyncEvent.applyUpsert f ∉ loopEvents j pg := by
  rw [loopEvents]
  intro hmem
  rw [List.mem_filterMap] at hmem
  obtain ⟨ic, _, hic⟩ := hmem
  cases hk : ic.2.kind <;> simp [hk] at hic

lemma upsert_not_mem_saveEvents (f : String) (j : Nat) (pg : ChangePage) :
    SyncEvent.applyUpsert f ∉ saveEvents j pg := by
  rw [saveEvents]
  cases hn : pg.newStartPageToken <;> simp

lemma upsert_not_mem_scanTraceFrom (f : String) :
    ∀ (pages : List ChangePage) (s : Nat), SyncEvent.applyUpsert f ∉ scanTraceFrom s pages := by
  intro pages
  induction pages with
  | nil =>
    intro s
    rw [scanTraceFrom]
    simp
  | cons pg rest ih =>
    intro s
    rw [scanTraceFrom]
    intro hmem
    rcases List.mem_append.1 hmem with h12 | h3
    · rcases List.mem_append.1 h12 with h1 | h2
      · exact upsert_not_mem_loopEvents f s pg h1
      · exact upsert_not_mem_saveEvents f s pg h2
    · split at h3
      · exact ih (s + 1) h3
      · simp at h3

def pageA : ChangePage :=
  { changes := [{ fileId := "x", kind := ChangeKind.removedOrTrashed }],
    nextPageToken := some "p2", newStartPageToken := none }

def pageB : ChangePage :=
  { changes := [{ fileId := "y", kind := ChangeKind.image }],
    nextPageToken := none, newStartPageToken := some "T" }

/-- C5 counterexample: a one-page scan with a single image (created or
updated) change and a newStartPageToken.  The cursor is saved to the
settings store during the loop, but the image change is applied to the
metadata store only after scanForChanges returns; the two-event prefix of
the full execution (an interruption point) contains the saveCursor event
yet not the store application of the change the cursor terminates, so the
persisted cursor reflects an unapplied change. -/
theorem cursor_saved_before_apply :
    SyncEvent.saveCursor 0 "T" ∈ (fullTrace [pageB]).take 2 ∧
    SyncEvent.applyUpsert "y" ∉ (fullTrace [pageB]).take 2 ∧
    SyncEvent.applyUpsert "y" ∈ fullTrace [pageB] := by
  decide

/-- C5 amended: during one incremental scan, deletions are applied to the
metadata store inside the page loop, and any prefix of the full execution
trace that contains the saveCursor event of page i already contains every
deletion-application event of every page up to and including page i; the
created and updated photos of the scan, however, are only collected in
memory during the loop and are written to the metadata store by the caller
strictly after the scan trace, hence after the cursor has been persisted:
no applyUpsert event occurs anywhere in the scan trace, and the full trace
is the scan trace followed by the upsert applications of the collected
photos. -/
theorem cursor_ordering_amended (pages : List ChangePage) :
    (∀ (n i : Nat) (t : String), SyncEvent.saveCursor i t ∈ (fullTrace pages).take n →
      ∀ j, j ≤ i → ∀ pg, pages.get? j = some pg →
        ∀ e ∈ deleteEvents j pg, e ∈ (fullTrace pages).take n) ∧
    (∀ f, SyncEvent.applyUpsert f ∉ scanTrace pages) ∧
    fullTrace pages = scanTrace pages ++ (collectedFrom pages).map SyncEvent.applyUpsert := by
  refine ⟨?_, fun f => upsert_not_mem_scanTraceFrom f pages 0, rfl⟩
  intro n i t hmem j hji pg hget e he
  rw [fullTrace, List.take_append_eq_append_take] at hmem
  have hscan : SyncEvent.saveCursor i t ∈ (scanTrace pages).take n := by
    rcases List.mem_append.1 hmem with h | h
    · exact h
    · exfalso
      have h2 := List.mem_of_mem_take h
      rw [List.mem_map] at h2
      obtain ⟨f, _, hf⟩ := h2
      exact SyncEvent.noConfusion hf
  have hloop := scanTrace_cursor_aux pages 0 n i t hscan j (Nat.zero_le j) hji pg
    (by simpa using hget) e (deleteEvents_subset_loopEvents j pg e he)
  rw [fullTrace, List.take_append_eq_append_take]
  exact List.mem_append.2 (Or.inl hloop)

/-- C5 amended witness on a two-page scan: the deletion of page 0 is in
the prefix that ends with the cursor save of page 1, the collected photo
is upserted only outside the scan trace, and the full trace decomposes as
scan trace plus upserts. -/
theorem cursor_ordering_amended_witness :
    SyncEvent.applyDelete 0 0 "x" ∈ (fullTrace [pageA, pageB]).take 3 ∧
    SyncEvent.applyUpsert "y" ∉ scanTrace [pageA, pageB] ∧
    fullTrace [pageA, pageB] =
      scanTrace [pageA, pageB] ++ (collectedFrom [pageA, pageB]).map SyncEvent.applyUpsert :=
  ⟨(cursor_ordering_amended [pageA, pageB]).1 3 1 "T" (by decide) 0 (by decide) pageA
      (by decide) (SyncEvent.applyDelete 0 0 "x") (by decide),
   (cursor_ordering_amended [pageA, pageB]).2.1 "y",
   (cursor_ordering_amended [pageA, pageB]).2.2⟩

end CloudPhotos
